import Mathlib

/-!
Shallow embedding of the mr_pdb_restraint_comparator repository.

The repository contains two near-duplicate variants of the same program:
`nmr_pdb_restraint_mapper.py` (namespace `Mapper` below) and
`test_general.py` (namespace `TestGeneral` below).  Each variant provides
`convert_atom_name`, `parse_mr_file`, `parse_pdb_file`, `link_mr_to_pdb`
and (identical in both files) `format_output_line`.

Python strings are modelled as Lean `String` (lists of characters);
Python dicts as insertion-ordered association lists with overwriting
assignment; Python exceptions as `Option`; the two regular expressions
used by the MR parser as deterministic scanners (their patterns admit no
observable backtracking, see the comments at `matchClause` and
`matchFloat`).
-/

/-- ASCII whitespace, as recognised by Python `str.strip()` . -/
def isPySpace (c : Char) : Bool :=
  c == ' ' || c == '\t' || c == '\n' || c == '\r' || c == '\x0b' || c == '\x0c'

/-- Drop the longest suffix of `l` all of whose characters satisfy `p`. -/
def dropEnd (p : Char → Bool) (l : List Char) : List Char :=
  (l.reverse.dropWhile p).reverse

/-- Drop matching characters from both ends, like Python `str.strip(set)` . -/
def stripBoth (p : Char → Bool) (l : List Char) : List Char :=
  dropEnd p (l.dropWhile p)

/-- Python `line.strip()` . -/
def pyStrip (s : String) : String := ⟨stripBoth isPySpace s.data⟩

/-- Python `s.strip(Char.ofNat 34)`, i.e. stripping double-quote characters. -/
def stripQuotes (s : String) : String := ⟨stripBoth (fun c => c == '"') s.data⟩

/-- Python `s.startswith(pat)` . -/
def hasPrefixStr (s pat : String) : Bool := pat.data.isPrefixOf s.data

/-- Python `s.endswith(pat)` . -/
def hasSuffixStr (s pat : String) : Bool := pat.data.isSuffixOf s.data

/-- Python slicing `s[a:b]` (for `0 ≤ a ≤ b`). -/
def pySlice (s : String) (a b : Nat) : String := ⟨(s.data.drop a).take (b - a)⟩

/-- Python `s.replace(c, d)` for single characters. -/
def replaceChar (s : String) (c d : Char) : String :=
  ⟨s.data.map (fun x => if x = c then d else x)⟩

def isDigitChar (c : Char) : Bool := '0' ≤ c && c ≤ '9'

/-- `\w` of the `re` module (ASCII portion relevant to this program). -/
def isWordChar (c : Char) : Bool :=
  ('a' ≤ c && c ≤ 'z') || ('A' ≤ c && c ≤ 'Z') || isDigitChar c || c == '_'

/-- The character class `[\w\x27\x22]` of the atom-name capture group. -/
def isNameChar (c : Char) : Bool := isWordChar c || c == '\x27' || c == '"'

/-- Numeric value of a list of decimal digit characters. -/
def digitsVal (l : List Char) : Nat :=
  l.foldl (fun acc c => acc * 10 + (c.toNat - '0'.toNat)) 0

/-- Python `int(s)`: optional surrounding whitespace, optional sign, at
least one digit; anything else raises (modelled as `none`). -/
def parseIntPy (s : String) : Option Int :=
  let t := stripBoth isPySpace s.data
  match t with
  | [] => none
  | '-' :: rest =>
      if rest ≠ [] && rest.all isDigitChar then some (-(digitsVal rest : Int)) else none
  | '+' :: rest =>
      if rest ≠ [] && rest.all isDigitChar then some ((digitsVal rest : Int)) else none
  | _ =>
      if t.all isDigitChar then some ((digitsVal t : Int)) else none

def natToDigitsAux : Nat → Nat → List Char
  | 0, _ => []
  | fuel + 1, n =>
      if n < 10 then [Nat.digitChar n]
      else natToDigitsAux fuel (n / 10) ++ [Nat.digitChar (n % 10)]

/-- Decimal digits of `n`, most significant first (fuel `n + 1` always
suffices since the argument strictly shrinks under division by 10). -/
def natToDigits (n : Nat) : List Char := natToDigitsAux (n + 1) n

/-- Python `str(i)` for an integer `i`. -/
def pyIntRepr (i : Int) : String :=
  if i < 0 then ⟨'-' :: natToDigits (-i).toNat⟩ else ⟨natToDigits i.toNat⟩

/-- Python `f-string` right-justification `{s:>n}` . -/
def rjust (n : Nat) (s : String) : String :=
  if s.data.length < n then ⟨List.replicate (n - s.data.length) ' '⟩ ++ s else s

/-- Python `f-string` left-justification `{s:<n}` . -/
def ljust (n : Nat) (s : String) : String :=
  if s.data.length < n then s ++ ⟨List.replicate (n - s.data.length) ' '⟩ else s

/-- Python `s.rstrip()` . -/
def pyRstrip (s : String) : String := ⟨dropEnd isPySpace s.data⟩

/-!  Python dicts as insertion-ordered association lists. -/

/-- `d[k] = v`: overwrite in place if the key is present, else append. -/
def dictInsert {α β : Type} [DecidableEq α] (d : List (α × β)) (k : α) (v : β) :
    List (α × β) :=
  match d with
  | [] => [(k, v)]
  | (k0, v0) :: rest =>
      if k0 = k then (k0, v) :: rest else (k0, v0) :: dictInsert rest k v

/-- `d.get(k)` / `k in d` lookup. -/
def dictGet? {α β : Type} [DecidableEq α] (d : List (α × β)) (k : α) : Option β :=
  match d with
  | [] => none
  | (k0, v0) :: rest => if k0 = k then some v0 else dictGet? rest k

/-- `d[k] = d.get(k, 0) + 1`; also the meaning of the `Mapper` variant's
`if key in d: d[key] += 1 else: d[key] = 1` . -/
def dictBump {α : Type} [DecidableEq α] (d : List (α × Nat)) (k : α) :
    List (α × Nat) :=
  dictInsert d k ((dictGet? d k).getD 0 + 1)

/-- `sum(d.values())` . -/
def dictValuesSum {α : Type} (d : List (α × Nat)) : Nat :=
  (d.map Prod.snd).sum

/-- Perform a list of `d[k] = v` assignments in order. -/
def insertAll {α β : Type} [DecidableEq α] (d : List (α × β))
    (ps : List (α × β)) : List (α × β) :=
  ps.foldl (fun d p => dictInsert d p.1 p.2) d

/-- The value of the last assignment to `k` in the trace `ps`, if any:
any assignment in the tail shadows an earlier one. -/
def lastWrite {α β : Type} [DecidableEq α] : List (α × β) → α → Option β
  | [], _ => none
  | p :: tl, k =>
      match lastWrite tl k with
      | some v => some v
      | none => if p.1 = k then some p.2 else none

/-!  The two regular expressions of `parse_mr_file`, as deterministic
scanners.  Pattern 1 is
`\(resid\s+(\d+)\s+and\s+name\s+([\w\x27\x22]+)\s*\)` : every repetition
is followed by a token its character class cannot produce (`\d+` by
whitespace, `\s+` by a letter, the name class by `\s*\)` where the class
contains neither a space nor a closing parenthesis), so the greedy match
is the only possible match and no backtracking is observable.
Pattern 2 is `\d+\.\d+`, deterministic for the same reason.
`re.findall` tries a match at every position, consuming matches
non-overlappingly; both patterns always consume at least one character,
so fuel equal to the string length never runs out. -/

/-- Consume the literal `pat` from the front of `cs`. -/
def litTok (pat : List Char) (cs : List Char) : Option (List Char) :=
  if pat.isPrefixOf cs then some (cs.drop pat.length) else none

/-- Consume the longest nonempty run of characters satisfying `p`. -/
def many1Tok (p : Char → Bool) (cs : List Char) : Option (List Char × List Char) :=
  let run := cs.takeWhile p
  if run.isEmpty then none else some (run, cs.dropWhile p)

/-- One match of the atom-reference pattern at the current position. -/
def matchClause (cs : List Char) : Option ((String × String) × List Char) := do
  let cs ← litTok ['('] cs
  let cs ← litTok "resid".data cs
  let (_, cs) ← many1Tok isPySpace cs
  let (ds, cs) ← many1Tok isDigitChar cs
  let (_, cs) ← many1Tok isPySpace cs
  let cs ← litTok "and".data cs
  let (_, cs) ← many1Tok isPySpace cs
  let cs ← litTok "name".data cs
  let (_, cs) ← many1Tok isPySpace cs
  let (nm, cs) ← many1Tok isNameChar cs
  let cs := cs.dropWhile isPySpace
  let cs ← litTok [')'] cs
  return ((⟨ds⟩, ⟨nm⟩), cs)

def scanClausesAux : Nat → List Char → List (String × String)
  | 0, _ => []
  | _ + 1, [] => []
  | fuel + 1, c :: rest =>
      match matchClause (c :: rest) with
      | some (p, rest2) => p :: scanClausesAux fuel rest2
      | none => scanClausesAux fuel rest

/-- `re.findall` of the atom-reference pattern: list of
`(residue id, atom name)` capture pairs. -/
def findResidName (s : String) : List (String × String) :=
  scanClausesAux s.data.length s.data

/-- One match of `\d+\.\d+` at the current position. -/
def matchFloat (cs : List Char) : Option (List Char × List Char) := do
  let (a, cs) ← many1Tok isDigitChar cs
  let cs ← litTok ['.'] cs
  let (b, cs) ← many1Tok isDigitChar cs
  return (a ++ '.' :: b, cs)

def scanFloatsAux : Nat → List Char → List String
  | 0, _ => []
  | _ + 1, [] => []
  | fuel + 1, c :: rest =>
      match matchFloat (c :: rest) with
      | some (t, rest2) => (⟨t⟩ : String) :: scanFloatsAux fuel rest2
      | none => scanFloatsAux fuel rest

/-- `re.findall` of the decimal-literal pattern. -/
def findFloats (s : String) : List String :=
  scanFloatsAux s.data.length s.data

/-!  Record types. -/

/-- `mr_data` entries: `(header, lines)` or `(data, (parts, float_values))` . -/
inductive MRRecord : Type
  | header (lines : List String)
  | data (parts : List (String × String)) (floats : List String)
  deriving DecidableEq, Repr

/-- `linked_data` entries:
`(header, lines)` or `(data, (indices, atom_names, float_values))` . -/
inductive LinkedRecord : Type
  | header (lines : List String)
  | data (indices : List String) (atomNames : List String) (floats : List String)
  deriving DecidableEq, Repr

/-!  `parse_mr_file`, common to both variants up to the choice of the
`convert_atom_name` function it calls on captured atom names. -/

/-- The loop body of `parse_mr_file` for one input line.  State:
records emitted so far, current `header_block`, current `in_header`. -/
def mrLineStep (conv : String → String)
    (acc : List MRRecord) (hb : List String) (ih : Bool) (rawLine : String) :
    List MRRecord × List String × Bool :=
  let line := pyStrip rawLine
  if hasPrefixStr line "!" then
    let ih1 := if !ih && line == "!" then true else ih
    let hb1 := hb ++ [line]
    if ih1 && line == "!" then (acc ++ [.header hb1], [], false)
    else (acc, hb1, ih1)
  else if hasPrefixStr line "assign" then
    let acc1 := if hb.isEmpty then acc else acc ++ [.header hb]
    let parts := (findResidName line).map
      (fun p => (p.1, conv (stripQuotes p.2)))
    (acc1 ++ [.data parts (findFloats line)], [],
      if hb.isEmpty then ih else false)
  else
    if hb.isEmpty then (acc, hb, ih) else (acc ++ [.header hb], [], false)

/-- `parse_mr_file` over the file's lines (I/O stripped away;
a missing file yields `[]` upstream of this function). -/
def parseMrLines (conv : String → String) (lines : List String) :
    List MRRecord :=
  let st := lines.foldl
    (fun (st : List MRRecord × List String × Bool) l =>
      mrLineStep conv st.1 st.2.1 st.2.2 l)
    ([], [], false)
  if st.2.1.isEmpty then st.1 else st.1 ++ [.header st.2.1]

/-!  Python float formatting.  `format_output_line` computes
`float(value)` and renders it with the format spec `<8.3f` .  The bounds
strings this program produces all come from the regex `\d+\.\d+`, so the
model parses a nonnegative decimal literal (`digits` or
`digits.digits`), rounds the exact decimal value half-to-even to three
places and left-justifies to width 8; on these short literals this
agrees with CPython's double-based rendering.  Any other string makes
`float(value)` raise, modelled as `none`. -/

/-- Parse a nonnegative decimal literal as `(numerator, 10 ^ exponent)` . -/
def parseDecimalLit (s : String) : Option (Nat × Nat) :=
  let t := stripBoth isPySpace s.data
  match t.splitOn '.' with
  | [a] => if a ≠ [] && a.all isDigitChar then some (digitsVal a, 0) else none
  | [a, b] =>
      if a ≠ [] && b ≠ [] && a.all isDigitChar && b.all isDigitChar then
        some (digitsVal a * 10 ^ b.length + digitsVal b, b.length)
      else none
  | _ => none

/-- Round `num / 10 ^ k` half-to-even to an integer number of
thousandths. -/
def roundThousandths (num k : Nat) : Nat :=
  let den := 10 ^ k
  let q := num * 1000 / den
  let r := num * 1000 % den
  if 2 * r < den then q
  else if den < 2 * r then q + 1
  else if q % 2 = 0 then q else q + 1

/-- Zero-pad a number below 1000 to three digits. -/
def padFrac3 (m : Nat) : String :=
  if m < 10 then ⟨'0' :: '0' :: natToDigits m⟩
  else if m < 100 then ⟨'0' :: natToDigits m⟩
  else ⟨natToDigits m⟩

/-- `{float(value):.3f}` for the decimal literals described above. -/
def pyFloat3 (value : String) : Option String :=
  (parseDecimalLit value).map fun p =>
    let m := roundThousandths p.1 p.2
    pyIntRepr (m / 1000) ++ "." ++ padFrac3 (m % 1000)

/-- `{float(value):<8.3f}` . -/
def pyFloat3L8 (value : String) : Option String :=
  (pyFloat3 value).map (ljust 8)

/-- `format_output_line(indices, atom_names, float_values,
include_atom_names)`, identical in both source files.  `none` models the
exception raised when a bounds string is not float-parseable. -/
def format_output_line (indices : List String) (atom_names : List String)
    (float_values : List String) (include_atom_names : Bool) :
    Option String :=
  let fidx :=
    if include_atom_names then
      (indices.zip atom_names).map
        (fun p => rjust 6 p.1 ++ "(" ++ p.2 ++ ")")
    else indices.map (rjust 6)
  (float_values.mapM pyFloat3L8).map fun ffl =>
    pyRstrip (String.intercalate "    "
      [String.intercalate " " fidx, String.intercalate " " ffl])

/-!  PDB coordinate lines, common to both variants: the record-type tag
and the three fixed column ranges.  A non-`ATOM` line is skipped; a
failing `int()` on an `ATOM` line raises, which the surrounding
`except` turns into returning the dict built so far. -/

abbrev StructureIndex : Type := List ((Int × String) × Int)

abbrev WarningTally : Type := List ((String × String) × Nat)

inductive PdbLine : Type
  | skip
  | atom (idx : Int) (name : String) (resid : Int)
  | bad

/-- Extract `int(line[6:11])`, `line[12:16].strip()`, `int(line[22:26])`
from an `ATOM` line. -/
def classifyPdbLine (line : String) : PdbLine :=
  if hasPrefixStr line "ATOM" then
    match parseIntPy (pySlice line 6 11), parseIntPy (pySlice line 22 26) with
    | some idx, some resid => .atom idx (pyStrip (pySlice line 12 16)) resid
    | _, _ => .bad
  else .skip

namespace TestGeneral

/-- `convert_atom_name` of `test_general.py` . -/
def convert_atom_name (atom_name : String) : String :=
  let a := stripQuotes atom_name
  if hasPrefixStr a "H5\x27" && (hasSuffixStr a "1" || a == "H5\x27") then
    "H5\x27"
  else if hasPrefixStr a "H5\x27" && (hasSuffixStr a "2" || a == "H5\x27\x27") then
    "H5\x27\x27"
  else if a.data.contains '\x27' && (hasSuffixStr a "1" || hasSuffixStr a "\x27") then
    (⟨dropEnd (fun c => c == '1' || c == '2' || c == '3' || c == '\x27') a.data⟩ : String)
      ++ "\x27"
  else if a.data.contains '\x27' && (hasSuffixStr a "2" || hasSuffixStr a "\x27\x27") then
    (⟨dropEnd (fun c => c == '1' || c == '2' || c == '3' || c == '\x27') a.data⟩ : String)
      ++ "\x27\x27"
  else if hasSuffixStr a "#" then ⟨a.data.dropLast⟩ ++ "*"
  else a

/-- `parse_mr_file` of `test_general.py` . -/
def parse_mr_file (lines : List String) : List MRRecord :=
  parseMrLines convert_atom_name lines

/-- The dict assignments `parse_pdb_file` performs for one `ATOM` line:
the raw atom name, the converted name when different, and the
`H5\x27*` wildcard entry when the converted name is `H5\x27` or `H5\x27\x27` . -/
def pdbAtomInserts (atom_index : Int) (atom_name : String) (resid : Int) :
    List ((Int × String) × Int) :=
  [((resid, atom_name), atom_index)]
    ++ (if convert_atom_name atom_name ≠ atom_name then
          [((resid, convert_atom_name atom_name), atom_index)] else [])
    ++ (if convert_atom_name atom_name = "H5\x27" ∨
           convert_atom_name atom_name = "H5\x27\x27" then
          [((resid, "H5\x27*"), atom_index)] else [])

def parsePdbGo : List String → StructureIndex → StructureIndex
  | [], d => d
  | l :: ls, d =>
      match classifyPdbLine l with
      | .skip => parsePdbGo ls d
      | .bad => d
      | .atom idx name resid =>
          parsePdbGo ls (insertAll d (pdbAtomInserts idx name resid))

/-- `parse_pdb_file` of `test_general.py` . -/
def parse_pdb_file (lines : List String) : StructureIndex :=
  parsePdbGo lines []

/-- The ordered trace of all dict assignments `parse_pdb_file` performs. -/
def pdbInserts : List String → List ((Int × String) × Int)
  | [] => []
  | l :: ls =>
      match classifyPdbLine l with
      | .skip => pdbInserts ls
      | .bad => []
      | .atom idx name resid => pdbAtomInserts idx name resid ++ pdbInserts ls

/-- The inner loop of `link_mr_to_pdb` over the references of one data
record: primary lookup under the re-converted name, fallback lookup with
`#` replaced by `*`, else the `N/A` sentinel plus a tally bump. -/
def linkParts (pdb : StructureIndex) :
    List (String × String) → List String → WarningTally →
    Option (List String × WarningTally)
  | [], idxs, w => some (idxs, w)
  | (resid, atom_name) :: rest, idxs, w =>
      match parseIntPy resid with
      | none => none
      | some r =>
          match dictGet? pdb (r, convert_atom_name atom_name) with
          | some v => linkParts pdb rest (idxs ++ [pyIntRepr v]) w
          | none =>
              match dictGet? pdb (r, replaceChar atom_name '#' '*') with
              | some v => linkParts pdb rest (idxs ++ [pyIntRepr v]) w
              | none =>
                  linkParts pdb rest (idxs ++ ["N/A"])
                    (dictBump w (resid, atom_name))

def linkGo (pdb : StructureIndex) :
    List MRRecord → List LinkedRecord → WarningTally →
    Option (List LinkedRecord × WarningTally)
  | [], acc, w => some (acc, w)
  | .header ls :: rest, acc, w => linkGo pdb rest (acc ++ [.header ls]) w
  | .data parts floats :: rest, acc, w =>
      match linkParts pdb parts [] w with
      | none => none
      | some (idxs, w2) =>
          linkGo pdb rest
            (acc ++ [.data idxs (parts.map Prod.snd) floats]) w2

/-- `link_mr_to_pdb` of `test_general.py` . -/
def link_mr_to_pdb (mr_data : List MRRecord) (pdb_data : StructureIndex) :
    Option (List LinkedRecord × WarningTally) :=
  linkGo pdb_data mr_data [] []

end TestGeneral

namespace Mapper

/-- `convert_atom_name` of `nmr_pdb_restraint_mapper.py` . -/
def convert_atom_name (atom_name : String) : String :=
  let a := stripQuotes atom_name
  if hasPrefixStr a "H5\x27" && hasSuffixStr a "1" then "H5\x27"
  else if hasPrefixStr a "H5\x27" && hasSuffixStr a "2" then "H5\x27\x27"
  else if a.data.contains '\x27' && (a.data.getLastD ' ').isDigit &&
      hasSuffixStr a "1" then
    ⟨a.data.dropLast⟩
  else if a.data.contains '\x27' && (a.data.getLastD ' ').isDigit &&
      hasSuffixStr a "2" then
    (⟨a.data.dropLast⟩ : String) ++ "\x27"
  else a

/-- `parse_mr_file` of `nmr_pdb_restraint_mapper.py` . -/
def parse_mr_file (lines : List String) : List MRRecord :=
  parseMrLines convert_atom_name lines

def parsePdbGo : List String → StructureIndex → StructureIndex
  | [], d => d
  | l :: ls, d =>
      match classifyPdbLine l with
      | .skip => parsePdbGo ls d
      | .bad => d
      | .atom idx name resid =>
          parsePdbGo ls (dictInsert d (resid, convert_atom_name name) idx)

/-- `parse_pdb_file` of `nmr_pdb_restraint_mapper.py`: a single entry per
coordinate line, keyed by the converted atom name. -/
def parse_pdb_file (lines : List String) : StructureIndex :=
  parsePdbGo lines []

/-- The inner loop of this variant's `link_mr_to_pdb`: direct lookup of
the parsed (already converted) name, no fallback. -/
def linkParts (pdb : StructureIndex) :
    List (String × String) → List String → WarningTally →
    Option (List String × WarningTally)
  | [], idxs, w => some (idxs, w)
  | (resid, atom_name) :: rest, idxs, w =>
      match parseIntPy resid with
      | none => none
      | some r =>
          match dictGet? pdb (r, atom_name) with
          | some v => linkParts pdb rest (idxs ++ [pyIntRepr v]) w
          | none =>
              linkParts pdb rest (idxs ++ ["N/A"])
                (dictBump w (resid, atom_name))

def linkGo (pdb : StructureIndex) :
    List MRRecord → List LinkedRecord → WarningTally →
    Option (List LinkedRecord × WarningTally)
  | [], acc, w => some (acc, w)
  | .header ls :: rest, acc, w => linkGo pdb rest (acc ++ [.header ls]) w
  | .data parts floats :: rest, acc, w =>
      match linkParts pdb parts [] w with
      | none => none
      | some (idxs, w2) =>
          linkGo pdb rest
            (acc ++ [.data idxs (parts.map Prod.snd) floats]) w2

/-- `link_mr_to_pdb` of `nmr_pdb_restraint_mapper.py` . -/
def link_mr_to_pdb (mr_data : List MRRecord) (pdb_data : StructureIndex) :
    Option (List LinkedRecord × WarningTally) :=
  linkGo pdb_data mr_data [] []

end Mapper

/-!  Counting `N/A` sentinels. -/

/-- Number of `N/A` entries in an index list. -/
def countNAL (l : List String) : Nat := l.countP (fun s => s == "N/A")

/-- Number of `N/A` entries in a linked record sequence. -/
def countNA (out : List LinkedRecord) : Nat :=
  (out.map fun r =>
    match r with
    | .header _ => 0
    | .data idxs _ _ => countNAL idxs).sum

/-- Shape relation between a parsed record and its linked image: headers
pass through unchanged, a data record keeps its bounds, stores the
original atom names, and gets one index string per reference. -/
def LinkShape : MRRecord → LinkedRecord → Prop
  | .header ls, o => o = .header ls
  | .data parts floats, o =>
      ∃ idxs, o = .data idxs (parts.map Prod.snd) floats ∧
        idxs.length = parts.length

/-!  Helper lemmas: dictionaries. -/

theorem dictGet?_dictInsert {α β : Type} [DecidableEq α]
    (d : List (α × β)) (k0 k : α) (v0 : β) :
    dictGet? (dictInsert d k0 v0) k = if k0 = k then some v0 else dictGet? d k := by
  induction d with
  | nil => by_cases h : k0 = k <;> simp [dictInsert, dictGet?, h]
  | cons p rest ih =>
      obtain ⟨k1, v1⟩ := p
      by_cases h1 : k1 = k0
      · subst h1
        by_cases h2 : k1 = k <;> simp [dictInsert, dictGet?, h2]
      · by_cases h2 : k1 = k
        · subst h2
          have h3 : ¬k0 = k1 := fun h => h1 h.symm
          simp [dictInsert, dictGet?, h1, h3]
        · simp [dictInsert, dictGet?, h1, h2, ih]

theorem dictGet?_insertAll {α β : Type} [DecidableEq α]
    (ps : List (α × β)) (d : List (α × β)) (k : α) :
    dictGet? (insertAll d ps) k =
      match lastWrite ps k with
      | some v => some v
      | none => dictGet? d k := by
  induction ps generalizing d with
  | nil => simp [insertAll, lastWrite]
  | cons p tl ih =>
      have hstep : insertAll d (p :: tl) = insertAll (dictInsert d p.1 p.2) tl := rfl
      rw [hstep, ih]
      cases hlw : lastWrite tl k with
      | some v => simp [lastWrite, hlw]
      | none =>
          simp only [lastWrite, hlw, dictGet?_dictInsert]
          by_cases h : p.1 = k <;> simp [h]

theorem dictValuesSum_dictBump {α : Type} [DecidableEq α]
    (w : List (α × Nat)) (k : α) :
    dictValuesSum (dictBump w k) = dictValuesSum w + 1 := by
  induction w with
  | nil => simp [dictBump, dictInsert, dictGet?, dictValuesSum]
  | cons p rest ih =>
      obtain ⟨k0, v0⟩ := p
      by_cases h : k0 = k
      · subst h
        simp [dictBump, dictInsert, dictGet?, dictValuesSum]
        omega
      · have hrec : dictBump ((k0, v0) :: rest) k = (k0, v0) :: dictBump rest k := by
          simp [dictBump, dictInsert, dictGet?, h]
        rw [hrec]
        simp [dictValuesSum] at ih ⊢
        omega

/-!  Helper lemmas: digit strings. -/

theorem digitChar_isDigit (m : Nat) (h : m < 10) :
    (Nat.digitChar m).isDigit = true := by
  interval_cases m <;> rfl

theorem natToDigitsAux_all_digits (fuel : Nat) :
    ∀ n c, c ∈ natToDigitsAux fuel n → c.isDigit = true := by
  induction fuel with
  | zero => intro n c hc; simp [natToDigitsAux] at hc
  | succ f ih =>
      intro n c hc
      simp only [natToDigitsAux] at hc
      by_cases h : n < 10
      · rw [if_pos h] at hc
        simp at hc
        subst hc
        exact digitChar_isDigit n h
      · rw [if_neg h] at hc
        rcases List.mem_append.1 hc with h1 | h1
        · exact ih (n / 10) c h1
        · simp at h1
          subst h1
          exact digitChar_isDigit _ (Nat.mod_lt n (by omega))

theorem natToDigits_all_digits (n : Nat) :
    ∀ c ∈ natToDigits n, c.isDigit = true :=
  fun c hc => natToDigitsAux_all_digits (n + 1) n c hc

theorem pyIntRepr_ne_NA (i : Int) : pyIntRepr i ≠ "N/A" := by
  unfold pyIntRepr
  split
  · intro h
    have hd := congrArg String.data h
    rw [show ("N/A" : String).data = ['N', '/', 'A'] from rfl] at hd
    simp at hd
  · intro h
    have hd := congrArg String.data h
    rw [show ("N/A" : String).data = ['N', '/', 'A'] from rfl] at hd
    simp only [] at hd
    have hmem : 'N' ∈ natToDigits i.toNat := by rw [hd]; simp
    have := natToDigits_all_digits i.toNat 'N' hmem
    simp [Char.isDigit] at this

theorem countNAL_append_one (l : List String) (x : String) :
    countNAL (l ++ [x]) = countNAL l + (if x == "N/A" then 1 else 0) := by
  simp [countNAL, List.countP_append, List.countP_cons]

theorem countNA_append (a b : List LinkedRecord) :
    countNA (a ++ b) = countNA a + countNA b := by
  simp [countNA]

/-!  Helper lemmas: stripping. -/

theorem head?_dropWhile_not (p : Char → Bool) (l : List Char) :
    ∀ c, (l.dropWhile p).head? = some c → p c = false := by
  induction l with
  | nil => intro c h; simp at h
  | cons a tl ih =>
      intro c h
      rw [List.dropWhile_cons] at h
      by_cases hp : p a
      · rw [if_pos hp] at h; exact ih c h
      · rw [if_neg hp] at h
        simp at h
        subst h
        simpa using hp

theorem dropWhile_eq_self_of_head (p : Char → Bool) (l : List Char)
    (h : ∀ c, l.head? = some c → p c = false) : l.dropWhile p = l := by
  cases l with
  | nil => rfl
  | cons a tl =>
      rw [List.dropWhile_cons, if_neg]
      simp [h a rfl]

theorem getLast?_dropEnd_not (p : Char → Bool) (l : List Char) :
    ∀ c, (dropEnd p l).getLast? = some c → p c = false := by
  intro c h
  rw [dropEnd, List.getLast?_reverse] at h
  exact head?_dropWhile_not p _ c h

theorem dropEnd_eq_self_of_getLast (p : Char → Bool) (l : List Char)
    (h : ∀ c, l.getLast? = some c → p c = false) : dropEnd p l = l := by
  rw [dropEnd, dropWhile_eq_self_of_head, List.reverse_reverse]
  intro c hc
  exact h c (by rwa [List.head?_reverse] at hc)

theorem dropEnd_isPrefix (p : Char → Bool) (l : List Char) :
    dropEnd p l <+: l := by
  have h : (l.reverse.dropWhile p).reverse <+: l.reverse.reverse :=
    List.reverse_prefix.mpr (List.dropWhile_suffix p)
  rwa [List.reverse_reverse] at h

theorem head?_of_isPrefix {l m : List Char} {c : Char}
    (hp : l <+: m) (h : l.head? = some c) : m.head? = some c := by
  obtain ⟨t, rfl⟩ := hp
  rw [List.head?_append, h]
  rfl

theorem stripBoth_head (p : Char → Bool) (l : List Char) :
    ∀ c, (stripBoth p l).head? = some c → p c = false := by
  intro c h
  exact head?_dropWhile_not p l c
    (head?_of_isPrefix (dropEnd_isPrefix p (l.dropWhile p)) h)

theorem stripBoth_getLast (p : Char → Bool) (l : List Char) :
    ∀ c, (stripBoth p l).getLast? = some c → p c = false :=
  fun c h => getLast?_dropEnd_not p _ c h

theorem stripBoth_eq_self (p : Char → Bool) (l : List Char)
    (h1 : ∀ c, l.head? = some c → p c = false)
    (h2 : ∀ c, l.getLast? = some c → p c = false) :
    stripBoth p l = l := by
  rw [stripBoth, dropWhile_eq_self_of_head p l h1,
    dropEnd_eq_self_of_getLast p l h2]

theorem stripBoth_idem (p : Char → Bool) (l : List Char) :
    stripBoth p (stripBoth p l) = stripBoth p l :=
  stripBoth_eq_self p _ (stripBoth_head p l) (stripBoth_getLast p l)

theorem stripBoth_sublist (p : Char → Bool) (l : List Char) :
    (stripBoth p l).Sublist l :=
  ((dropEnd_isPrefix p _).sublist).trans (List.dropWhile_sublist p)

theorem strEta (s : String) : (⟨s.data⟩ : String) = s := by
  obtain ⟨d⟩ := s
  rfl

theorem stripQuotes_idem (s : String) :
    stripQuotes (stripQuotes s) = stripQuotes s :=
  congrArg String.mk (stripBoth_idem _ s.data)

theorem mem_of_hasPrefixStr {s pat : String} (h : hasPrefixStr s pat = true) :
    ∀ c ∈ pat.data, c ∈ s.data := by
  intro c hc
  rw [hasPrefixStr, List.isPrefixOf_iff_prefix] at h
  exact List.Sublist.mem hc h.sublist

theorem contains_eq_false_of_not_mem {l : List Char} {c : Char}
    (h : c ∉ l) : l.contains c = false := by
  cases hcon : l.contains c with
  | false => rfl
  | true =>
      rw [show l.contains c = l.elem c from rfl] at hcon
      exact absurd (List.elem_iff.mp hcon) h

theorem hasPrefixStr_H5p_eq_false {s : String} (h : '\x27' ∉ s.data) :
    hasPrefixStr s "H5\x27" = false := by
  cases hb : hasPrefixStr s "H5\x27" with
  | false => rfl
  | true =>
      exact absurd (mem_of_hasPrefixStr hb '\x27' (by decide)) h

theorem hasSuffixStr_hash_eq_false {s : String}
    (h : s.data.getLast? = some '*') : hasSuffixStr s "#" = false := by
  cases hb : hasSuffixStr s "#" with
  | false => rfl
  | true =>
      rw [hasSuffixStr, List.isSuffixOf_iff_suffix] at hb
      obtain ⟨t, ht⟩ := hb
      rw [← ht, List.getLast?_concat] at h
      simp at h

/-!  Helper lemmas: the normalizers on names without a prime. -/

theorem convertG_eval_no_prime (s : String)
    (h : '\x27' ∉ (stripQuotes s).data) :
    TestGeneral.convert_atom_name s =
      if hasSuffixStr (stripQuotes s) "#" = true then
        (⟨(stripQuotes s).data.dropLast⟩ : String) ++ "*"
      else stripQuotes s := by
  have hpre : hasPrefixStr (stripQuotes s) "H5\x27" = false :=
    hasPrefixStr_H5p_eq_false h
  have hcon : (stripQuotes s).data.contains '\x27' = false :=
    contains_eq_false_of_not_mem h
  simp [TestGeneral.convert_atom_name, hpre, hcon, h]

theorem convertM_eval_no_prime (s : String)
    (h : '\x27' ∉ (stripQuotes s).data) :
    Mapper.convert_atom_name s = stripQuotes s := by
  have hpre : hasPrefixStr (stripQuotes s) "H5\x27" = false :=
    hasPrefixStr_H5p_eq_false h
  have hcon : (stripQuotes s).data.contains '\x27' = false :=
    contains_eq_false_of_not_mem h
  simp [Mapper.convert_atom_name, hpre, hcon, h]

theorem stripQuotes_append_star (a : String)
    (hhead : ∀ c, a.data.head? = some c → (c == '"') = false) :
    stripQuotes ((⟨a.data.dropLast⟩ : String) ++ "*") =
      (⟨a.data.dropLast⟩ : String) ++ "*" := by
  have hB : stripBoth (fun c => c == '"') (a.data.dropLast ++ ['*']) =
      a.data.dropLast ++ ['*'] := by
    apply stripBoth_eq_self
    · intro c hc
      cases hdl : a.data.dropLast with
      | nil =>
          rw [hdl] at hc
          simp at hc
          subst hc
          rfl
      | cons b bt =>
          rw [hdl] at hc
          rw [List.head?_append] at hc
          simp at hc
          subst hc
          exact hhead _
            (head?_of_isPrefix (List.dropLast_prefix _) (by rw [hdl]; rfl))
    · intro c hc
      rw [List.getLast?_concat] at hc
      simp at hc
      subst hc
      rfl
  show (⟨stripBoth _ (a.data.dropLast ++ ['*'])⟩ : String) = _
  rw [hB]
  rfl

theorem convertG_idem_of_no_prime (s : String) (h : '\x27' ∉ s.data) :
    TestGeneral.convert_atom_name (TestGeneral.convert_atom_name s) =
      TestGeneral.convert_atom_name s := by
  have ha : '\x27' ∉ (stripQuotes s).data :=
    fun hc => h (List.Sublist.mem hc (stripBoth_sublist _ s.data))
  have h1 := convertG_eval_no_prime s ha
  by_cases hs : hasSuffixStr (stripQuotes s) "#" = true
  · rw [if_pos hs] at h1
    rw [h1]
    have hq : stripQuotes ((⟨(stripQuotes s).data.dropLast⟩ : String) ++ "*") =
        (⟨(stripQuotes s).data.dropLast⟩ : String) ++ "*" :=
      stripQuotes_append_star (stripQuotes s)
        (fun c hc => stripBoth_head _ s.data c hc)
    have hyd : (((⟨(stripQuotes s).data.dropLast⟩ : String) ++ "*")).data =
        (stripQuotes s).data.dropLast ++ ['*'] := rfl
    have hy : '\x27' ∉
        (stripQuotes ((⟨(stripQuotes s).data.dropLast⟩ : String) ++ "*")).data := by
      rw [hq, hyd]
      intro hc
      rcases List.mem_append.1 hc with h2 | h2
      · exact ha (List.Sublist.mem h2 (List.dropLast_prefix _).sublist)
      · simp at h2
    have h2 := convertG_eval_no_prime _ hy
    rw [hq] at h2
    have hsf : hasSuffixStr ((⟨(stripQuotes s).data.dropLast⟩ : String) ++ "*") "#"
        = false :=
      hasSuffixStr_hash_eq_false (by rw [hyd]; exact List.getLast?_concat _)
    rw [h2, hsf]
    simp
  · rw [if_neg hs] at h1
    rw [h1]
    have ha2 : '\x27' ∉ (stripQuotes (stripQuotes s)).data := by
      rw [stripQuotes_idem]; exact ha
    have h2 := convertG_eval_no_prime (stripQuotes s) ha2
    rw [stripQuotes_idem] at h2
    rw [h2, if_neg hs]

theorem convertM_idem_of_no_prime (s : String) (h : '\x27' ∉ s.data) :
    Mapper.convert_atom_name (Mapper.convert_atom_name s) =
      Mapper.convert_atom_name s := by
  have ha : '\x27' ∉ (stripQuotes s).data :=
    fun hc => h (List.Sublist.mem hc (stripBoth_sublist _ s.data))
  have h1 := convertM_eval_no_prime s ha
  rw [h1]
  have ha2 : '\x27' ∉ (stripQuotes (stripQuotes s)).data := by
    rw [stripQuotes_idem]; exact ha
  have h2 := convertM_eval_no_prime (stripQuotes s) ha2
  rw [stripQuotes_idem] at h2
  rw [h2]

/-!  Helper lemmas: the index builder as a trace of assignments. -/

theorem parsePdbGo_eq_insertAll :
    ∀ (ls : List String) (d : StructureIndex),
      TestGeneral.parsePdbGo ls d = insertAll d (TestGeneral.pdbInserts ls) := by
  intro ls
  induction ls with
  | nil => intro d; rfl
  | cons l tl ih =>
      intro d
      cases h : classifyPdbLine l with
      | skip =>
          simp only [TestGeneral.parsePdbGo, TestGeneral.pdbInserts, h]
          exact ih d
      | bad =>
          simp only [TestGeneral.parsePdbGo, TestGeneral.pdbInserts, h]
          rfl
      | atom idx name resid =>
          simp only [TestGeneral.parsePdbGo, TestGeneral.pdbInserts, h]
          rw [ih]
          simp [insertAll, List.foldl_append]

theorem lastWrite_append {α β : Type} [DecidableEq α]
    (ps qs : List (α × β)) (k : α) :
    lastWrite (ps ++ qs) k =
      match lastWrite qs k with
      | some v => some v
      | none => lastWrite ps k := by
  induction ps with
  | nil =>
      simp only [List.nil_append]
      cases h : lastWrite qs k <;> simp [lastWrite, h]
  | cons p tl ih =>
      have hstep : lastWrite ((p :: tl) ++ qs) k =
          match lastWrite (tl ++ qs) k with
          | some v => some v
          | none => if p.1 = k then some p.2 else none := rfl
      have hstep2 : lastWrite (p :: tl) k =
          match lastWrite tl k with
          | some v => some v
          | none => if p.1 = k then some p.2 else none := rfl
      rw [hstep, ih, hstep2]
      cases hq : lastWrite qs k <;> cases ht : lastWrite tl k <;> simp [hq, ht]

/-!  Helper lemmas: linker invariants (both variants). -/

theorem linkPartsG_inv (pdb : StructureIndex) :
    ∀ (parts : List (String × String)) (idxs : List String) (w : WarningTally)
      (idxs2 : List String) (w2 : WarningTally),
      TestGeneral.linkParts pdb parts idxs w = some (idxs2, w2) →
      dictValuesSum w2 + countNAL idxs = dictValuesSum w + countNAL idxs2 ∧
      idxs2.length = idxs.length + parts.length := by
  intro parts
  induction parts with
  | nil =>
      intro idxs w idxs2 w2 h
      simp only [TestGeneral.linkParts, Option.some.injEq, Prod.mk.injEq] at h
      obtain ⟨h1, h2⟩ := h
      subst h1; subst h2
      exact ⟨rfl, by simp⟩
  | cons p rest ih =>
      obtain ⟨resid, an⟩ := p
      intro idxs w idxs2 w2 h
      simp only [TestGeneral.linkParts] at h
      cases hr : parseIntPy resid with
      | none =>
          simp only [hr] at h
          exact Option.noConfusion h
      | some r =>
          simp only [hr] at h
          have hit : ∀ v : Int,
              TestGeneral.linkParts pdb rest (idxs ++ [pyIntRepr v]) w
                = some (idxs2, w2) →
              dictValuesSum w2 + countNAL idxs
                  = dictValuesSum w + countNAL idxs2 ∧
              idxs2.length = idxs.length + (rest.length + 1) := by
            intro v hv
            obtain ⟨hsum, hlen⟩ := ih _ _ _ _ hv
            have hne : (pyIntRepr v == "N/A") = false := by
              simpa using pyIntRepr_ne_NA v
            rw [countNAL_append_one, hne] at hsum
            simp at hsum hlen
            constructor
            · omega
            · omega
          cases hg : dictGet? pdb (r, TestGeneral.convert_atom_name an) with
          | some v =>
              simp only [hg] at h
              simpa only [List.length_cons] using hit v h
          | none =>
              simp only [hg] at h
              cases hg2 : dictGet? pdb (r, replaceChar an '#' '*') with
              | some v =>
                  simp only [hg2] at h
                  simpa only [List.length_cons] using hit v h
              | none =>
                  simp only [hg2] at h
                  obtain ⟨hsum, hlen⟩ := ih _ _ _ _ h
                  rw [countNAL_append_one] at hsum
                  rw [dictValuesSum_dictBump] at hsum
                  simp at hsum hlen
                  simp only [List.length_cons]
                  exact ⟨by omega, by omega⟩

theorem linkPartsM_inv (pdb : StructureIndex) :
    ∀ (parts : List (String × String)) (idxs : List String) (w : WarningTally)
      (idxs2 : List String) (w2 : WarningTally),
      Mapper.linkParts pdb parts idxs w = some (idxs2, w2) →
      dictValuesSum w2 + countNAL idxs = dictValuesSum w + countNAL idxs2 ∧
      idxs2.length = idxs.length + parts.length := by
  intro parts
  induction parts with
  | nil =>
      intro idxs w idxs2 w2 h
      simp only [Mapper.linkParts, Option.some.injEq, Prod.mk.injEq] at h
      obtain ⟨h1, h2⟩ := h
      subst h1; subst h2
      exact ⟨rfl, by simp⟩
  | cons p rest ih =>
      obtain ⟨resid, an⟩ := p
      intro idxs w idxs2 w2 h
      simp only [Mapper.linkParts] at h
      cases hr : parseIntPy resid with
      | none =>
          simp only [hr] at h
          exact Option.noConfusion h
      | some r =>
          simp only [hr] at h
          cases hg : dictGet? pdb (r, an) with
          | some v =>
              simp only [hg] at h
              obtain ⟨hsum, hlen⟩ := ih _ _ _ _ h
              have hne : (pyIntRepr v == "N/A") = false := by
                simpa using pyIntRepr_ne_NA v
              rw [countNAL_append_one, hne] at hsum
              simp at hsum hlen
              simp only [List.length_cons]
              exact ⟨by omega, by omega⟩
          | none =>
              simp only [hg] at h
              obtain ⟨hsum, hlen⟩ := ih _ _ _ _ h
              rw [countNAL_append_one] at hsum
              rw [dictValuesSum_dictBump] at hsum
              simp at hsum hlen
              simp only [List.length_cons]
              exact ⟨by omega, by omega⟩

theorem linkGoG_inv (pdb : StructureIndex) :
    ∀ (mr : List MRRecord) (acc : List LinkedRecord) (w : WarningTally)
      (out : List LinkedRecord) (w2 : WarningTally),
      TestGeneral.linkGo pdb mr acc w = some (out, w2) →
      (dictValuesSum w2 + countNA acc = dictValuesSum w + countNA out) ∧
      ∃ tl, out = acc ++ tl ∧ List.Forall₂ LinkShape mr tl := by
  intro mr
  induction mr with
  | nil =>
      intro acc w out w2 h
      simp only [TestGeneral.linkGo, Option.some.injEq, Prod.mk.injEq] at h
      obtain ⟨h1, h2⟩ := h
      subst h1; subst h2
      exact ⟨rfl, [], by simp, List.Forall₂.nil⟩
  | cons r rest ih =>
      intro acc w out w2 h
      cases r with
      | header ls =>
          simp only [TestGeneral.linkGo] at h
          obtain ⟨hsum, tl, htl, hf⟩ := ih _ _ _ _ h
          rw [countNA_append] at hsum
          have hz : countNA [LinkedRecord.header ls] = 0 := by simp [countNA]
          refine ⟨by omega, LinkedRecord.header ls :: tl, ?_, ?_⟩
          · rw [htl]; simp
          · exact List.Forall₂.cons rfl hf
      | data parts floats =>
          simp only [TestGeneral.linkGo] at h
          cases hp : TestGeneral.linkParts pdb parts [] w with
          | none =>
              rw [hp] at h
              exact Option.noConfusion h
          | some pr =>
              obtain ⟨idxs, w1⟩ := pr
              rw [hp] at h
              obtain ⟨hsum2, hlen⟩ := linkPartsG_inv pdb parts [] w idxs w1 hp
              obtain ⟨hsum, tl, htl, hf⟩ := ih _ _ _ _ h
              rw [countNA_append] at hsum
              have hone : countNA [LinkedRecord.data idxs (parts.map Prod.snd) floats]
                  = countNAL idxs := by simp [countNA]
              have hz : countNAL ([] : List String) = 0 := rfl
              refine ⟨by omega,
                LinkedRecord.data idxs (parts.map Prod.snd) floats :: tl, ?_, ?_⟩
              · rw [htl]; simp
              · exact List.Forall₂.cons ⟨idxs, rfl, by simpa using hlen⟩ hf

theorem linkGoM_inv (pdb : StructureIndex) :
    ∀ (mr : List MRRecord) (acc : List LinkedRecord) (w : WarningTally)
      (out : List LinkedRecord) (w2 : WarningTally),
      Mapper.linkGo pdb mr acc w = some (out, w2) →
      (dictValuesSum w2 + countNA acc = dictValuesSum w + countNA out) ∧
      ∃ tl, out = acc ++ tl ∧ List.Forall₂ LinkShape mr tl := by
  intro mr
  induction mr with
  | nil =>
      intro acc w out w2 h
      simp only [Mapper.linkGo, Option.some.injEq, Prod.mk.injEq] at h
      obtain ⟨h1, h2⟩ := h
      subst h1; subst h2
      exact ⟨rfl, [], by simp, List.Forall₂.nil⟩
  | cons r rest ih =>
      intro acc w out w2 h
      cases r with
      | header ls =>
          simp only [Mapper.linkGo] at h
          obtain ⟨hsum, tl, htl, hf⟩ := ih _ _ _ _ h
          rw [countNA_append] at hsum
          have hz : countNA [LinkedRecord.header ls] = 0 := by simp [countNA]
          refine ⟨by omega, LinkedRecord.header ls :: tl, ?_, ?_⟩
          · rw [htl]; simp
          · exact List.Forall₂.cons rfl hf
      | data parts floats =>
          simp only [Mapper.linkGo] at h
          cases hp : Mapper.linkParts pdb parts [] w with
          | none =>
              rw [hp] at h
              exact Option.noConfusion h
          | some pr =>
              obtain ⟨idxs, w1⟩ := pr
              rw [hp] at h
              obtain ⟨hsum2, hlen⟩ := linkPartsM_inv pdb parts [] w idxs w1 hp
              obtain ⟨hsum, tl, htl, hf⟩ := ih _ _ _ _ h
              rw [countNA_append] at hsum
              have hone : countNA [LinkedRecord.data idxs (parts.map Prod.snd) floats]
                  = countNAL idxs := by simp [countNA]
              have hz : countNAL ([] : List String) = 0 := rfl
              refine ⟨by omega,
                LinkedRecord.data idxs (parts.map Prod.snd) floats :: tl, ?_, ?_⟩
              · rw [htl]; simp
              · exact List.Forall₂.cons ⟨idxs, rfl, by simpa using hlen⟩ hf

/-!  Claim theorems. -/

/-- C1: round-trip resolution.  The code resolves the exact reference
`resid 5, H5\x271` to the atom index, but the atom-name capture class of
the `assign` pattern contains only word characters and quote characters,
so the wildcard reference `H5\x27*` is never extracted: the parsed data
record holds a single reference and linking yields a single index.  The
index builder does create the `(5, H5\x27*)` wildcard entry and the
linker resolves a directly supplied wildcard reference, so the pattern
omission defeats the wildcard machinery present everywhere else. -/
theorem C1_wildcard_reference_dropped :
    TestGeneral.link_mr_to_pdb
        (TestGeneral.parse_mr_file
          ["assign (resid 5 and name H5\x271) (resid 5 and name H5\x27*) 3.4 0.2 0.2"])
        (TestGeneral.parse_pdb_file ["ATOM      1 H5\x271         5"])
      = some ([LinkedRecord.data ["1"] ["H5\x27"] ["3.4", "0.2", "0.2"]], []) ∧
    TestGeneral.parse_mr_file
        ["assign (resid 5 and name H5\x271) (resid 5 and name H5\x27*) 3.4 0.2 0.2"]
      = [MRRecord.data [("5", "H5\x27")] ["3.4", "0.2", "0.2"]] ∧
    dictGet? (TestGeneral.parse_pdb_file ["ATOM      1 H5\x271         5"])
        (5, "H5\x27*") = some 1 ∧
    TestGeneral.link_mr_to_pdb [MRRecord.data [("5", "H5\x27*")] []]
        (TestGeneral.parse_pdb_file ["ATOM      1 H5\x271         5"])
      = some ([LinkedRecord.data ["1"] ["H5\x27*"] []], []) :=
  ⟨rfl, rfl, rfl, rfl⟩

/-- C2 counterexample: two coordinate lines at residue 1 (atoms
`H5\x271` with index 1 and `H5\x272` with index 2) both insert the
wildcard key `(1, H5\x27*)`; the final index maps it to 2, the SECOND
inserter, although after the first line alone it mapped to 1. -/
theorem C2_counterexample :
    dictGet? (TestGeneral.parse_pdb_file
        ["ATOM      1 H5\x271         1", "ATOM      2 H5\x272         1"])
      (1, "H5\x27*") = some 2 ∧
    dictGet? (TestGeneral.parse_pdb_file ["ATOM      1 H5\x271         1"])
      (1, "H5\x27*") = some 1 :=
  ⟨rfl, rfl⟩

/-- C2 amended: the index builder uses plain dict assignment, which
overwrites: every key of the resulting StructureIndex maps to the value
of the LAST assignment of that key in the builder's insertion trace
(last writer wins), not the first. -/
theorem C2_last_writer_wins (lines : List String) (k : Int × String) :
    dictGet? (TestGeneral.parse_pdb_file lines) k =
      lastWrite (TestGeneral.pdbInserts lines) k := by
  rw [show TestGeneral.parse_pdb_file lines = TestGeneral.parsePdbGo lines [] from rfl,
    parsePdbGo_eq_insertAll, dictGet?_insertAll]
  cases h : lastWrite (TestGeneral.pdbInserts lines) k <;> simp [dictGet?]

/-- C3 counterexample: neither normalizer variant is idempotent.  In the
`test_general` variant, `H2\x272` converts to `H\x27\x27`, which
converts again to `H\x27`; in the `mapper` variant, `H2\x2711` converts
to `H2\x271`, which converts again to `H2\x27` . -/
theorem C3_counterexample :
    TestGeneral.convert_atom_name (TestGeneral.convert_atom_name "H2\x272") ≠
      TestGeneral.convert_atom_name "H2\x272" ∧
    Mapper.convert_atom_name (Mapper.convert_atom_name "H2\x2711") ≠
      Mapper.convert_atom_name "H2\x2711" :=
  ⟨by decide, by decide⟩

/-- C3 amended: both variants of `convert_atom_name` are idempotent on
every atom name that contains no prime character. -/
theorem C3_idempotent_on_unprimed (s : String) (h : '\x27' ∉ s.data) :
    TestGeneral.convert_atom_name (TestGeneral.convert_atom_name s) =
      TestGeneral.convert_atom_name s ∧
    Mapper.convert_atom_name (Mapper.convert_atom_name s) =
      Mapper.convert_atom_name s :=
  ⟨convertG_idem_of_no_prime s h, convertM_idem_of_no_prime s h⟩

/-- C3 witness: the amended statement instantiated at the name `HB#` . -/
theorem C3_idempotent_on_unprimed_witness :
    '\x27' ∉ ("HB#" : String).data ∧
    (TestGeneral.convert_atom_name (TestGeneral.convert_atom_name "HB#") =
        TestGeneral.convert_atom_name "HB#" ∧
      Mapper.convert_atom_name (Mapper.convert_atom_name "HB#") =
        Mapper.convert_atom_name "HB#") :=
  ⟨by decide, C3_idempotent_on_unprimed "HB#" (by decide)⟩

/-- C4 counterexample: the coordinate line for atom `H2\x271` at
residue 1 has canonical name `H\x27`, a singly-primed member of the
duplicate-proton pair `H\x27` / `H\x27\x27`, yet the `test_general`
index holds only the raw and canonical entries and no wildcard entry at
all; the `mapper` variant index builder inserts a single entry and never
any wildcard entry. -/
theorem C4_counterexample :
    TestGeneral.convert_atom_name "H2\x271" = "H\x27" ∧
    TestGeneral.convert_atom_name "H2\x272" = "H\x27\x27" ∧
    TestGeneral.parse_pdb_file ["ATOM      1 H2\x271         1"] =
      [((1, "H2\x271"), 1), ((1, "H\x27"), 1)] ∧
    dictGet? (TestGeneral.parse_pdb_file ["ATOM      1 H2\x271         1"])
      (1, "H\x27*") = none ∧
    Mapper.parse_pdb_file ["ATOM      1 H2\x271         1"] = [((1, "H2\x27"), 1)] :=
  ⟨rfl, rfl, rfl, rfl, rfl⟩

/-- C4 amended: the `test_general` index builder inserts the wildcard
key `(resid, H5\x27*)` for a coordinate line exactly when the canonical
atom name is `H5\x27` or `H5\x27\x27` (or the raw or canonical name is
itself literally `H5\x27*`, in which case it enters as an ordinary
entry); no other duplicate-proton family member gets a wildcard entry. -/
theorem C4_wildcard_only_H5 (idx : Int) (name : String) (resid : Int) :
    ((resid, "H5\x27*"), idx) ∈ TestGeneral.pdbAtomInserts idx name resid ↔
      (TestGeneral.convert_atom_name name = "H5\x27" ∨
       TestGeneral.convert_atom_name name = "H5\x27\x27" ∨
       name = "H5\x27*" ∨
       TestGeneral.convert_atom_name name = "H5\x27*") := by
  unfold TestGeneral.pdbAtomInserts
  constructor
  · intro h
    rcases List.mem_append.1 h with h | h
    · rcases List.mem_append.1 h with h | h
      · have heq := List.mem_singleton.1 h
        have h12 : "H5\x27*" = name := congrArg (fun p => (p.1).2) heq
        exact Or.inr (Or.inr (Or.inl h12.symm))
      · by_cases hB : TestGeneral.convert_atom_name name ≠ name
        · rw [if_pos hB] at h
          have heq := List.mem_singleton.1 h
          have h12 : "H5\x27*" = TestGeneral.convert_atom_name name :=
            congrArg (fun p => (p.1).2) heq
          exact Or.inr (Or.inr (Or.inr h12.symm))
        · rw [if_neg hB] at h
          exact absurd h (List.not_mem_nil _)
    · by_cases hc : TestGeneral.convert_atom_name name = "H5\x27" ∨
          TestGeneral.convert_atom_name name = "H5\x27\x27"
      · exact hc.elim (fun x => Or.inl x) (fun x => Or.inr (Or.inl x))
      · rw [if_neg hc] at h
        exact absurd h (List.not_mem_nil _)
  · intro h
    rcases h with h | h | h | h
    · exact List.mem_append.2 (Or.inr
        (by rw [if_pos (Or.inl h)]; exact List.mem_singleton.2 rfl))
    · exact List.mem_append.2 (Or.inr
        (by rw [if_pos (Or.inr h)]; exact List.mem_singleton.2 rfl))
    · exact List.mem_append.2 (Or.inl (List.mem_append.2 (Or.inl
        (by rw [h]; exact List.mem_singleton.2 rfl))))
    · by_cases hB : TestGeneral.convert_atom_name name = name
      · exact List.mem_append.2 (Or.inl (List.mem_append.2 (Or.inl
          (by rw [← hB, h]; exact List.mem_singleton.2 rfl))))
      · exact List.mem_append.2 (Or.inl (List.mem_append.2 (Or.inr
          (by rw [if_pos hB, h]; exact List.mem_singleton.2 rfl))))

/-- C5 counterexample: on the header block delimited by bare `!` lines,
the parser emits TWO header records (each bare `!` line flushes at
once), not one block flushed on the closing delimiter as the claim
describes. -/
theorem C5_counterexample :
    TestGeneral.parse_mr_file ["!", "!comment", "!"] =
      [MRRecord.header ["!"], MRRecord.header ["!comment", "!"]] ∧
    TestGeneral.parse_mr_file ["!", "!comment", "!"] ≠
      [MRRecord.header ["!", "!comment", "!"]] :=
  ⟨rfl, by decide⟩

/-- C5 amended: a bare `!` line always flushes immediately, in every
state: it appends itself to the header accumulator and emits the
accumulated block as a HeaderBlock in the same step, resetting the
accumulator and the in-header flag; in particular an opening bare `!`
from the idle state flushes a block by itself (the flag set on entry is
consumed within the same line). -/
theorem C5_bare_delimiter_always_flushes (conv : String → String)
    (acc : List MRRecord) (hb : List String) (ih : Bool) :
    mrLineStep conv acc hb ih "!" =
      (acc ++ [MRRecord.header (hb ++ ["!"])], [], false) := by
  cases ih <;>
    simp [mrLineStep, show pyStrip "!" = "!" from rfl,
      show hasPrefixStr "!" "!" = true from rfl]

/-- C6: for every record sequence and index, in both variants, each
unresolved reference contributes exactly one `N/A` sentinel and exactly
one tally increment, so after linking the sum of all tally values equals
the number of `N/A` sentinels in the linked records. -/
theorem C6_tally_equals_sentinel_count (mr : List MRRecord)
    (pdbG pdbM : StructureIndex) (outG outM : List LinkedRecord)
    (wG wM : WarningTally)
    (hG : TestGeneral.link_mr_to_pdb mr pdbG = some (outG, wG))
    (hM : Mapper.link_mr_to_pdb mr pdbM = some (outM, wM)) :
    dictValuesSum wG = countNA outG ∧ dictValuesSum wM = countNA outM := by
  constructor
  · have h := (linkGoG_inv pdbG mr [] [] outG wG hG).1
    simpa [countNA, dictValuesSum] using h
  · have h := (linkGoM_inv pdbM mr [] [] outM wM hM).1
    simpa [countNA, dictValuesSum] using h

/-- C6 witness: one data record with one unresolvable reference against
an empty index, in both variants. -/
theorem C6_tally_equals_sentinel_count_witness :
    dictValuesSum [(("5", "HXX"), 1)] =
        countNA [LinkedRecord.data ["N/A"] ["HXX"] ["1.5"]] ∧
    dictValuesSum [(("5", "HXX"), 1)] =
        countNA [LinkedRecord.data ["N/A"] ["HXX"] ["1.5"]] :=
  C6_tally_equals_sentinel_count [MRRecord.data [("5", "HXX")] ["1.5"]] [] []
    [LinkedRecord.data ["N/A"] ["HXX"] ["1.5"]]
    [LinkedRecord.data ["N/A"] ["HXX"] ["1.5"]]
    [(("5", "HXX"), 1)] [(("5", "HXX"), 1)] rfl rfl

/-- C7: whenever linking succeeds (in either variant) the output has
one record per input record in the same order: every HeaderBlock passes
through unchanged at its position, every DataRecord becomes a data
record carrying the original bounds, the original atom names, and one
index per reference; hence the lengths agree. -/
theorem C7_link_preserves_order_and_shape (mr : List MRRecord)
    (pdbG pdbM : StructureIndex) (outG outM : List LinkedRecord)
    (wG wM : WarningTally)
    (hG : TestGeneral.link_mr_to_pdb mr pdbG = some (outG, wG))
    (hM : Mapper.link_mr_to_pdb mr pdbM = some (outM, wM)) :
    List.Forall₂ LinkShape mr outG ∧ outG.length = mr.length ∧
    List.Forall₂ LinkShape mr outM ∧ outM.length = mr.length := by
  obtain ⟨-, tl, htl, hf⟩ := linkGoG_inv pdbG mr [] [] outG wG hG
  obtain ⟨-, tl2, htl2, hf2⟩ := linkGoM_inv pdbM mr [] [] outM wM hM
  simp only [List.nil_append] at htl htl2
  subst htl; subst htl2
  exact ⟨hf, hf.length_eq.symm, hf2, hf2.length_eq.symm⟩

/-- C7 witness: a header followed by a data record, in both variants. -/
theorem C7_link_preserves_order_and_shape_witness :
    List.Forall₂ LinkShape
        [MRRecord.header ["!x"], MRRecord.data [("5", "HXX")] ["1.5"]]
        [LinkedRecord.header ["!x"], LinkedRecord.data ["N/A"] ["HXX"] ["1.5"]] ∧
    ([LinkedRecord.header ["!x"],
        LinkedRecord.data ["N/A"] ["HXX"] ["1.5"]].length) =
      ([MRRecord.header ["!x"], MRRecord.data [("5", "HXX")] ["1.5"]].length) ∧
    List.Forall₂ LinkShape
        [MRRecord.header ["!x"], MRRecord.data [("5", "HXX")] ["1.5"]]
        [LinkedRecord.header ["!x"], LinkedRecord.data ["N/A"] ["HXX"] ["1.5"]] ∧
    ([LinkedRecord.header ["!x"],
        LinkedRecord.data ["N/A"] ["HXX"] ["1.5"]].length) =
      ([MRRecord.header ["!x"], MRRecord.data [("5", "HXX")] ["1.5"]].length) :=
  C7_link_preserves_order_and_shape
    [MRRecord.header ["!x"], MRRecord.data [("5", "HXX")] ["1.5"]] [] []
    [LinkedRecord.header ["!x"], LinkedRecord.data ["N/A"] ["HXX"] ["1.5"]]
    [LinkedRecord.header ["!x"], LinkedRecord.data ["N/A"] ["HXX"] ["1.5"]]
    [(("5", "HXX"), 1)] [(("5", "HXX"), 1)] rfl rfl

/-- C8: the bounds string 3.4 renders as the float 3.400 left-justified
to width 8, an index string renders right-justified to width 6, indices
are space-joined, a four-space separator precedes the bounds, and
trailing whitespace is stripped. -/
theorem C8_output_formatting :
    pyFloat3L8 "3.4" = some "3.400   " ∧
    rjust 6 "7" = "     7" ∧
    format_output_line ["7"] [] ["3.4"] false = some "     7    3.400" ∧
    format_output_line ["7", "12"] [] ["3.4", "0.2"] false =
      some "     7     12    3.400    0.200" :=
  ⟨rfl, rfl, rfl, rfl⟩

/-- C9: the distinct raw names `H1\x27` and `H2\x271` (different base
names) both normalize to `H\x27` in the `test_general` variant, so two
distinct atoms of one residue share a single StructureIndex key (here
the shared key ends up holding the second atom index). -/
theorem C9_normalizer_collision :
    TestGeneral.convert_atom_name "H1\x27" = "H\x27" ∧
    TestGeneral.convert_atom_name "H2\x271" = "H\x27" ∧
    ("H1\x27" : String) ≠ "H2\x271" ∧
    dictGet? (TestGeneral.parse_pdb_file
        ["ATOM      1 H1\x27          1", "ATOM      2 H2\x271         1"])
      (1, "H\x27") = some 2 :=
  ⟨rfl, rfl, by decide, rfl⟩

/-- C10: the sentinel produced by the linker is an ordinary index
string for the formatter: it is right-justified in the width-6 field,
and in diagnostic mode suffixed with the parenthesised atom name,
exactly as a resolved index is. -/
theorem C10_sentinel_flows_like_index :
    TestGeneral.link_mr_to_pdb [MRRecord.data [("5", "HXX")] ["3.4"]] [] =
      some ([LinkedRecord.data ["N/A"] ["HXX"] ["3.4"]], [(("5", "HXX"), 1)]) ∧
    rjust 6 "N/A" = "   N/A" ∧
    format_output_line ["N/A"] ["HXX"] ["3.4"] false = some "   N/A    3.400" ∧
    format_output_line ["N/A"] ["HXX"] ["3.4"] true =
      some "   N/A(HXX)    3.400" ∧
    format_output_line ["7"] ["HXX"] ["3.4"] true =
      some "     7(HXX)    3.400" :=
  ⟨rfl, rfl, rfl, rfl, rfl⟩
